import Mathlib

/-!
Shallow embedding of `src/utils.py` (author-name extraction, normalization
and aggregation) and verification of its specification.

Strings are modelled by Lean `String`; the Python string operations used by
the code (`split`, `lower`, `upper`, `capitalize`, `replace`, indexing) are
embedded as executable functions over the underlying character lists.
-/

/-- A value in a Python author list: either a string or a non-string object.
Calling a string method such as `split` on a non-string raises
`AttributeError`. -/
inductive PyVal where
  | str (s : String)
  | nonString
deriving DecidableEq

/-- The one exception that can escape `clean_author_names`: the
`AttributeError` raised by `name.split()` in the single-token guard
(line 44), which runs before the `try` block. -/
inductive PyExc where
  | attributeError
deriving DecidableEq

/-- Split a character list at every character satisfying `p`, keeping empty
pieces (the piece-list semantics underlying Python `str.split`). -/
def splitP (p : Char → Bool) : List Char → List (List Char)
  | [] => [[]]
  | c :: rest =>
    if p c then [] :: splitP p rest
    else
      match splitP p rest with
      | [] => [[c]]
      | g :: gs => (c :: g) :: gs

/-- Python `str.split()` with no argument: split on whitespace and drop the
empty pieces, so every token is nonempty and whitespace-free. -/
def pyTokens (s : String) : List String :=
  ((splitP Char.isWhitespace s.toList).filter (fun g => g ≠ [])).map
    (fun g => (⟨g⟩ : String))

/-- Python `str.lower()`: lowercase every character. -/
def pyLower (s : String) : String := ⟨s.toList.map Char.toLower⟩

/-- Python `str.upper()`: uppercase every character. -/
def pyUpper (s : String) : String := ⟨s.toList.map Char.toUpper⟩

/-- Python `str.capitalize()`: first character uppercased, all remaining
characters lowercased. -/
def pyCapitalize (s : String) : String :=
  match s.toList with
  | [] => ""
  | c :: cs => ⟨c.toUpper :: cs.map Char.toLower⟩

/-- Python `str.replace(' ', '')`: remove every space character. -/
def removeSpaces (s : String) : String := ⟨s.toList.filter (fun c => c ≠ ' ')⟩

/-- Split a character list on the two-character delimiter `", "`, the way
Python `str.split(', ')` does: non-overlapping, left to right, empty pieces
kept. -/
def splitCS : List Char → List (List Char)
  | [] => [[]]
  | [c] => [[c]]
  | c1 :: c2 :: rest =>
    if c1 = ',' ∧ c2 = ' ' then [] :: splitCS rest
    else
      match splitCS (c2 :: rest) with
      | [] => [[c1]]
      | g :: gs => (c1 :: g) :: gs

/-- Python `s.count(", ")`: non-overlapping occurrences of the delimiter. -/
def countCS : List Char → Nat
  | [] => 0
  | [_] => 0
  | c1 :: c2 :: rest =>
    if c1 = ',' ∧ c2 = ' ' then countCS rest + 1
    else countCS (c2 :: rest)

/-- Python `s.split(', ')` on strings. -/
def pySplitCommaSpace (s : String) : List String :=
  (splitCS s.toList).map (fun g => (⟨g⟩ : String))

/-- Python `s.count(", ")` on strings. -/
def pyCountCommaSpace (s : String) : Nat := countCS s.toList

/-- `extract_authors` (src/utils.py lines 22-23):
`df['Authors'].str.split(', ').explode().tolist()`. The `'Authors'` column
is modelled as the list of its string fields; per-field splitting followed
by `explode` is flat concatenation in field order, then within-field
order. -/
def extract_authors (authorsCol : List String) : List String :=
  (authorsCol.map pySplitCommaSpace).flatten

/-- Outcome of one iteration of the `clean_author_names` loop. -/
inductive NormStep where
  | skip
  | key (k : String)
  | abort
  | raised (e : PyExc)

/-- The body of the `clean_author_names` loop for one name
(src/utils.py lines 43-58). A non-string raises `AttributeError` already at
the guard `len(name.split()) == 1`, which sits before the `try`, so the
exception escapes uncaught. A string with zero tokens passes the guard and
reaches `name.split()[0]` inside the `try`; its `IndexError` is caught, the
diagnostic is printed and the loop breaks. Tokens produced by `split()` are
never empty, so with at least two tokens `name.split()[1][0]` is the first
character of the second token and cannot fail. -/
def normStep (v : PyVal) : NormStep :=
  match v with
  | .nonString => .raised .attributeError
  | .str s =>
    match pyTokens s with
    | [_] => .skip
    | [] => .abort
    | t0 :: t1 :: _ =>
      .key (removeSpaces (pyLower (t0 ++ (⟨t1.toList.take 1⟩ : String))))

/-- `clean_author_names` (src/utils.py lines 25-60). The result is
`.error e` when an uncaught exception escapes the function (discarding
everything accumulated); otherwise `.ok (keys, diags)`, where `keys` lists
the cleaned names accumulated until the end of the input or until a caught
structural error broke the loop, and `diags` records the offending name
printed in a diagnostic (it is empty exactly when the loop ran to
completion). -/
def clean_author_names : List PyVal → Except PyExc (List String × List PyVal)
  | [] => .ok ([], [])
  | v :: rest =>
    match normStep v with
    | .raised e => .error e
    | .skip => clean_author_names rest
    | .abort => .ok ([], [v])
    | .key k =>
      match clean_author_names rest with
      | .error e => .error e
      | .ok (ks, ds) => .ok (k :: ks, ds)

/-- One iteration of `name_counts[name] = name_counts.get(name, 0) + 1`
(src/utils.py line 87) on an insertion-ordered association list; a Python
dict preserves insertion order. -/
def addCount : List (String × Nat) → String → List (String × Nat)
  | [], k => [(k, 1)]
  | (k', c) :: rest, k =>
    if k' = k then (k', c + 1) :: rest else (k', c) :: addCount rest k

/-- The `name_counts` dict built by the first loop of
`create_author_count_dataframe` (src/utils.py lines 86-87). -/
def name_counts (l : List String) : List (String × Nat) := l.foldl addCount []

/-- The f-string `f"{first_initial}. {last_name}"` (src/utils.py lines
90-91) with `last_name = name[0:-1].capitalize()` and
`first_initial = name[-1].upper()`; `name[-1]` is the final character and
`name[0:-1]` is everything except the final character. -/
def formatName (name : String) : String :=
  pyUpper (⟨name.toList.drop (name.toList.length - 1)⟩ : String) ++ ". " ++
    pyCapitalize (⟨name.toList.dropLast⟩ : String)

/-- `create_author_count_dataframe` (src/utils.py lines 62-95). The
DataFrame is modelled as the list of its `(Count, Name)` rows, in row
order. `name[-1]` raises `IndexError` on an empty key and nothing catches
it; that outcome is `none`. -/
def create_author_count_dataframe (l : List String) :
    Option (List (Nat × String)) :=
  if (name_counts l).all (fun p => p.1 ≠ "") then
    some ((name_counts l).map (fun p => (p.2, formatName p.1)))
  else none

/-- Specification-side description of the canonical key for a raw name:
for a name with at least two whitespace tokens, lowercase(tokens[0] + first
character of tokens[1]) with embedded spaces removed; `none` for fewer than
two tokens. -/
def keySpec (s : String) : Option String :=
  match pyTokens s with
  | t0 :: t1 :: _ =>
    some (removeSpaces (pyLower (t0 ++ (⟨t1.toList.take 1⟩ : String))))
  | _ => none

/-- The distinct elements of a list, in order of first occurrence. -/
def firstSeen (l : List String) : List String :=
  l.foldl (fun acc k => if k ∈ acc then acc else acc ++ [k]) []

/-- A well-formed canonical key: at least two characters, all lowercase. -/
def isWellFormedKey (k : String) : Prop :=
  2 ≤ k.toList.length ∧ ∀ c ∈ k.toList, c.toLower = c

instance (k : String) : Decidable (isWellFormedKey k) := by
  unfold isWellFormedKey
  infer_instance

/-- Re-derive a canonical key from a display name `<Initial>. <LastName>`
by lowercasing the last-name part (everything after the first three
characters) concatenated with the initial (the first character). -/
def reDerive (d : String) : String :=
  pyLower ((⟨d.toList.drop 3⟩ : String) ++ (⟨d.toList.take 1⟩ : String))

/-! ### Character-level lemmas -/

theorem toNat_ofNat_of_valid (n : Nat) (h : n.isValidChar) :
    (Char.ofNat n).toNat = n := by
  rw [Char.ofNat, dif_pos h]
  rfl

theorem toLower_toLower (c : Char) : c.toLower.toLower = c.toLower := by
  unfold Char.toLower
  by_cases h : c.toNat ≥ 65 ∧ c.toNat ≤ 90
  · rw [if_pos h]
    have hv : (c.toNat + 32).isValidChar := Or.inl (by omega)
    rw [toNat_ofNat_of_valid _ hv, if_neg (by omega)]
  · rw [if_neg h, if_neg h]

theorem toLower_ne_space {c : Char} (h : c ≠ ' ') : c.toLower ≠ ' ' := by
  unfold Char.toLower
  by_cases h1 : c.toNat ≥ 65 ∧ c.toNat ≤ 90
  · rw [if_pos h1]
    intro he
    have h2 := congrArg Char.toNat he
    rw [toNat_ofNat_of_valid _ (Or.inl (by omega))] at h2
    have h32 : (' ' : Char).toNat = 32 := rfl
    omega
  · rw [if_neg h1]
    exact h

theorem toLower_toUpper_of_lower {c : Char} (h : c.toLower = c) :
    c.toUpper.toLower = c := by
  unfold Char.toUpper
  by_cases h1 : c.toNat ≥ 97 ∧ c.toNat ≤ 122
  · rw [if_pos h1]
    have hv : (c.toNat - 32).isValidChar := Or.inl (by omega)
    unfold Char.toLower
    rw [toNat_ofNat_of_valid _ hv, if_pos (by omega)]
    have he : c.toNat - 32 + 32 = c.toNat := by omega
    rw [he, Char.ofNat_toNat]
  · rw [if_neg h1]
    exact h

/-! ### String-level helper lemmas -/

theorem toList_append (a b : String) :
    (a ++ b).toList = a.toList ++ b.toList := by
  cases a; cases b; rfl

theorem mk_append (x y : List Char) :
    ((⟨x⟩ : String) ++ (⟨y⟩ : String)) = (⟨x ++ y⟩ : String) := rfl

/-! ### Tokenization lemmas -/

theorem splitP_chars {p : Char → Bool} (l : List Char) :
    ∀ g ∈ splitP p l, ∀ c ∈ g, p c = false := by
  induction l with
  | nil =>
    intro g hg c hc
    simp only [splitP, List.mem_singleton] at hg
    subst hg
    simp at hc
  | cons a rest ih =>
    intro g hg c hc
    by_cases hp : p a
    · simp only [splitP, if_pos hp, List.mem_cons] at hg
      rcases hg with rfl | hg
      · simp at hc
      · exact ih g hg c hc
    · simp only [splitP, if_neg hp] at hg
      cases hsp : splitP p rest with
      | nil =>
        rw [hsp] at hg
        simp only [List.mem_singleton] at hg
        subst hg
        simp only [List.mem_singleton] at hc
        subst hc
        simpa using hp
      | cons g0 gs =>
        rw [hsp] at hg
        rcases List.mem_cons.mp hg with rfl | hg2
        · rcases List.mem_cons.mp hc with rfl | hc2
          · simpa using hp
          · exact ih g0 (hsp ▸ List.mem_cons_self g0 gs) c hc2
        · exact ih g (hsp ▸ List.mem_cons_of_mem g0 hg2) c hc

theorem pyTokens_facts {s t : String} (ht : t ∈ pyTokens s) :
    t.toList ≠ [] ∧ ∀ c ∈ t.toList, c.isWhitespace = false := by
  simp only [pyTokens, List.mem_map, List.mem_filter] at ht
  obtain ⟨g, ⟨hg, hne⟩, rfl⟩ := ht
  refine ⟨by simpa using hne, ?_⟩
  intro c hc
  exact splitP_chars s.toList g hg c hc

theorem key_shape {s t0 t1 : String} {ts : List String}
    (h : pyTokens s = t0 :: t1 :: ts) :
    2 ≤ (removeSpaces (pyLower (t0 ++ (⟨t1.toList.take 1⟩ : String)))).toList.length
    ∧ (∀ c ∈ (removeSpaces (pyLower (t0 ++ (⟨t1.toList.take 1⟩ : String)))).toList,
        c.toLower = c)
    ∧ ∀ c ∈ (removeSpaces (pyLower (t0 ++ (⟨t1.toList.take 1⟩ : String)))).toList,
        c ≠ ' ' := by
  have ht0 : t0 ∈ pyTokens s := by rw [h]; exact List.mem_cons_self _ _
  have ht1 : t1 ∈ pyTokens s := by
    rw [h]; exact List.mem_cons_of_mem _ (List.mem_cons_self _ _)
  obtain ⟨h0ne, h0ws⟩ := pyTokens_facts ht0
  obtain ⟨h1ne, h1ws⟩ := pyTokens_facts ht1
  have happ : (t0 ++ (⟨t1.toList.take 1⟩ : String)).toList
      = t0.toList ++ t1.toList.take 1 := by
    cases t0; rfl
  have hbase : ∀ c ∈ t0.toList ++ t1.toList.take 1, c ≠ ' ' := by
    intro c hc
    rcases List.mem_append.mp hc with hc0 | hc1
    · intro he; subst he; simpa using h0ws _ hc0
    · intro he; subst he
      exact absurd (h1ws _ (List.mem_of_mem_take hc1)) (by simp)
  have hlowlist : (pyLower (t0 ++ (⟨t1.toList.take 1⟩ : String))).toList
      = (t0.toList ++ t1.toList.take 1).map Char.toLower := by
    simp [pyLower, happ]
  have hnospace :
      ∀ c ∈ (t0.toList ++ t1.toList.take 1).map Char.toLower, c ≠ ' ' := by
    intro c hc
    obtain ⟨c0, hc0, rfl⟩ := List.mem_map.mp hc
    exact toLower_ne_space (hbase c0 hc0)
  have hfilter :
      (removeSpaces (pyLower (t0 ++ (⟨t1.toList.take 1⟩ : String)))).toList
        = (t0.toList ++ t1.toList.take 1).map Char.toLower := by
    simp only [removeSpaces, hlowlist]
    show List.filter _ _ = _
    rw [List.filter_eq_self.mpr]
    intro a ha
    simpa using hnospace a ha
  refine ⟨?_, ?_, ?_⟩
  · rw [hfilter]
    simp only [List.length_map, List.length_append, List.length_take]
    have l0 : 1 ≤ t0.toList.length := by
      cases h0 : t0.toList with
      | nil => exact absurd h0 h0ne
      | cons a b => simp
    have l1 : 1 ≤ t1.toList.length := by
      cases h1 : t1.toList with
      | nil => exact absurd h1 h1ne
      | cons a b => simp
    omega
  · rw [hfilter]
    intro c hc
    obtain ⟨c0, hc0, rfl⟩ := List.mem_map.mp hc
    exact toLower_toLower c0
  · rw [hfilter]
    exact hnospace

/-! ### Normalizer lemmas -/

theorem normStep_key {v : PyVal} {k : String} (h : normStep v = .key k) :
    ∃ s t0 t1 ts, v = .str s ∧ pyTokens s = t0 :: t1 :: ts ∧
      k = removeSpaces (pyLower (t0 ++ (⟨t1.toList.take 1⟩ : String))) := by
  cases v with
  | nonString => simp [normStep] at h
  | str s =>
    cases hts : pyTokens s with
    | nil => simp [normStep, hts] at h
    | cons t0 rest =>
      cases rest with
      | nil => simp [normStep, hts] at h
      | cons t1 ts =>
        refine ⟨s, t0, t1, ts, rfl, hts, ?_⟩
        simp only [normStep, hts] at h
        cases h
        rfl

theorem clean_keys_invariant (l : List PyVal) :
    ∀ ks ds, clean_author_names l = .ok (ks, ds) →
      (∀ k ∈ ks, k ≠ "" ∧ 2 ≤ k.toList.length ∧ (∀ c ∈ k.toList, c.toLower = c)
        ∧ ∀ c ∈ k.toList, c ≠ ' ')
      ∧ ks.length ≤ l.length := by
  induction l with
  | nil =>
    intro ks ds h
    simp only [clean_author_names, Except.ok.injEq, Prod.mk.injEq] at h
    obtain ⟨rfl, rfl⟩ := h
    simp
  | cons v rest ih =>
    intro ks ds h
    simp only [clean_author_names] at h
    cases hstep : normStep v with
    | raised e => rw [hstep] at h; simp at h
    | skip =>
      rw [hstep] at h
      obtain ⟨h1, h2⟩ := ih ks ds h
      exact ⟨h1, Nat.le_succ_of_le h2⟩
    | abort =>
      rw [hstep] at h
      simp only [Except.ok.injEq, Prod.mk.injEq] at h
      obtain ⟨h1, h2⟩ := h
      subst h1
      simp
    | key k =>
      rw [hstep] at h
      cases hr : clean_author_names rest with
      | error e => rw [hr] at h; simp at h
      | ok p =>
        obtain ⟨ks', ds'⟩ := p
        rw [hr] at h
        simp only [Except.ok.injEq, Prod.mk.injEq] at h
        obtain ⟨hks, hds⟩ := h
        subst hks
        obtain ⟨h1, h2⟩ := ih ks' ds' hr
        refine ⟨?_, by simpa using Nat.succ_le_succ h2⟩
        intro k0 hk0
        rcases List.mem_cons.mp hk0 with rfl | hmem
        · obtain ⟨s, t0, t1, ts, hv, hts, hkey⟩ := normStep_key hstep
          obtain ⟨hlen, hlow, hsp⟩ := key_shape hts
          subst hkey
          refine ⟨?_, hlen, hlow, hsp⟩
          intro he
          rw [he] at hlen
          simp at hlen
        · exact h1 k0 hmem

theorem clean_complete_keys (l : List String) :
    ∀ ks, clean_author_names (l.map PyVal.str) = .ok (ks, []) →
      ks = l.filterMap keySpec := by
  induction l with
  | nil =>
    intro ks h
    simp only [List.map_nil, clean_author_names, Except.ok.injEq,
      Prod.mk.injEq] at h
    simp [← h.1]
  | cons s rest ih =>
    intro ks h
    simp only [List.map_cons, clean_author_names] at h
    cases hts : pyTokens s with
    | nil =>
      have hstep : normStep (.str s) = .abort := by simp [normStep, hts]
      rw [hstep] at h
      simp at h
    | cons t0 rest2 =>
      cases rest2 with
      | nil =>
        have hstep : normStep (.str s) = .skip := by simp [normStep, hts]
        rw [hstep] at h
        rw [List.filterMap_cons]
        have hk : keySpec s = none := by simp [keySpec, hts]
        rw [hk]
        exact ih ks h
      | cons t1 ts =>
        have hstep : normStep (.str s)
            = .key (removeSpaces (pyLower (t0 ++ (⟨t1.toList.take 1⟩ : String)))) := by
          simp [normStep, hts]
        rw [hstep] at h
        cases hr : clean_author_names (rest.map PyVal.str) with
        | error e => rw [hr] at h; simp at h
        | ok p =>
          obtain ⟨ks', ds'⟩ := p
          rw [hr] at h
          simp only [Except.ok.injEq, Prod.mk.injEq] at h
          obtain ⟨hks, hds⟩ := h
          subst hds
          rw [List.filterMap_cons]
          have hk : keySpec s
              = some (removeSpaces (pyLower (t0 ++ (⟨t1.toList.take 1⟩ : String)))) := by
            simp [keySpec, hts]
          rw [hk, ← ih ks' hr, ← hks]

theorem single_token_skip (s : String) (rest : List PyVal)
    (h : (pyTokens s).length = 1) :
    clean_author_names (PyVal.str s :: rest) = clean_author_names rest := by
  cases hts : pyTokens s with
  | nil => rw [hts] at h; simp at h
  | cons t rest2 =>
    cases rest2 with
    | nil =>
      have hstep : normStep (.str s) = .skip := by simp [normStep, hts]
      simp [clean_author_names, hstep]
    | cons t1 ts => rw [hts] at h; simp at h

theorem zero_tokens_abort (l1 : List String) (s : String) (rest : List PyVal)
    (h1 : ∀ t ∈ l1, pyTokens t ≠ [])
    (h2 : pyTokens s = []) :
    clean_author_names (l1.map PyVal.str ++ PyVal.str s :: rest)
      = .ok (l1.filterMap keySpec, [PyVal.str s]) := by
  induction l1 with
  | nil =>
    have hstep : normStep (.str s) = .abort := by simp [normStep, h2]
    simp [clean_author_names, hstep]
  | cons t l1' ih =>
    have ht : pyTokens t ≠ [] := h1 t (List.mem_cons_self _ _)
    cases hts : pyTokens t with
    | nil => exact absurd hts ht
    | cons u0 us =>
      cases us with
      | nil =>
        have hstep : normStep (.str t) = .skip := by simp [normStep, hts]
        simp only [List.map_cons, List.cons_append, clean_author_names, hstep,
          List.append_eq]
        rw [ih (fun x hx => h1 x (List.mem_cons_of_mem _ hx))]
        have hk : keySpec t = none := by simp [keySpec, hts]
        rw [List.filterMap_cons, hk]
      | cons u1 us' =>
        have hstep : normStep (.str t)
            = .key (removeSpaces (pyLower (u0 ++ (⟨u1.toList.take 1⟩ : String)))) := by
          simp [normStep, hts]
        simp only [List.map_cons, List.cons_append, clean_author_names, hstep,
          List.append_eq]
        rw [ih (fun x hx => h1 x (List.mem_cons_of_mem _ hx))]
        have hk : keySpec t
            = some (removeSpaces (pyLower (u0 ++ (⟨u1.toList.take 1⟩ : String)))) := by
          simp [keySpec, hts]
        rw [List.filterMap_cons, hk]

/-! ### Extractor lemmas -/

theorem splitCS_length (l : List Char) : (splitCS l).length = countCS l + 1 := by
  induction l using splitCS.induct with
  | case1 => rfl
  | case2 c => rfl
  | case3 c1 c2 rest h ih =>
    simp only [splitCS, countCS, if_pos h, List.length_cons, ih]
  | case4 c1 c2 rest h heq ih =>
    rw [heq] at ih
    simp at ih
  | case5 c1 c2 rest h g gs heq ih =>
    rw [heq] at ih
    simp only [splitCS, countCS, if_neg h, heq, List.length_cons]
    simp at ih
    omega

/-! ### Aggregator lemmas -/

theorem addCount_fst (m : List (String × Nat)) (k : String) :
    (addCount m k).map Prod.fst =
      if k ∈ m.map Prod.fst then m.map Prod.fst else m.map Prod.fst ++ [k] := by
  induction m with
  | nil => simp [addCount]
  | cons p rest ih =>
    obtain ⟨k', c⟩ := p
    by_cases h : k' = k
    · subst h
      simp [addCount]
    · simp only [addCount, if_neg h, List.map_cons, List.mem_cons]
      rw [ih]
      by_cases hm : k ∈ rest.map Prod.fst
      · rw [if_pos hm, if_pos (Or.inr hm)]
      · rw [if_neg hm, if_neg (by rintro (rfl | hc) <;> [exact h rfl; exact hm hc])]
        simp

theorem addCount_snd_sum (m : List (String × Nat)) (k : String) :
    ((addCount m k).map Prod.snd).sum = (m.map Prod.snd).sum + 1 := by
  induction m with
  | nil => simp [addCount]
  | cons p rest ih =>
    obtain ⟨k', c⟩ := p
    by_cases h : k' = k
    · subst h
      simp [addCount]
      omega
    · simp [addCount, if_neg h, ih]
      omega

theorem foldl_addCount_fst (l : List String) (m : List (String × Nat)) :
    (l.foldl addCount m).map Prod.fst
      = l.foldl (fun acc k => if k ∈ acc then acc else acc ++ [k])
          (m.map Prod.fst) := by
  induction l generalizing m with
  | nil => rfl
  | cons k rest ih =>
    simp only [List.foldl_cons]
    rw [ih (addCount m k), addCount_fst]

theorem name_counts_fst (l : List String) :
    (name_counts l).map Prod.fst = firstSeen l := by
  rw [name_counts, foldl_addCount_fst]
  rfl

theorem foldl_addCount_snd_sum (l : List String) (m : List (String × Nat)) :
    ((l.foldl addCount m).map Prod.snd).sum
      = (m.map Prod.snd).sum + l.length := by
  induction l generalizing m with
  | nil => simp
  | cons k rest ih =>
    simp only [List.foldl_cons, List.length_cons]
    rw [ih (addCount m k), addCount_snd_sum]
    omega

theorem name_counts_sum (l : List String) :
    ((name_counts l).map Prod.snd).sum = l.length := by
  rw [name_counts, foldl_addCount_snd_sum]
  simp

theorem firstSeen_aux_nodup (l : List String) (acc : List String)
    (h : acc.Nodup) :
    (l.foldl (fun acc k => if k ∈ acc then acc else acc ++ [k]) acc).Nodup := by
  induction l generalizing acc with
  | nil => simpa
  | cons k rest ih =>
    simp only [List.foldl_cons]
    by_cases hm : k ∈ acc
    · rw [if_pos hm]
      exact ih acc h
    · rw [if_neg hm]
      refine ih _ ?_
      simp [List.nodup_append, h, hm]

theorem firstSeen_nodup (l : List String) : (firstSeen l).Nodup :=
  firstSeen_aux_nodup l [] List.nodup_nil

theorem firstSeen_aux_mem (l : List String) (acc : List String) (x : String) :
    x ∈ l.foldl (fun acc k => if k ∈ acc then acc else acc ++ [k]) acc
      ↔ x ∈ acc ∨ x ∈ l := by
  induction l generalizing acc with
  | nil => simp
  | cons k rest ih =>
    simp only [List.foldl_cons, List.mem_cons]
    by_cases hm : k ∈ acc
    · rw [if_pos hm, ih]
      constructor
      · rintro (h | h)
        · exact Or.inl h
        · exact Or.inr (Or.inr h)
      · rintro (h | rfl | h)
        · exact Or.inl h
        · exact Or.inl hm
        · exact Or.inr h
    · rw [if_neg hm, ih]
      simp only [List.mem_append, List.mem_singleton]
      tauto

theorem firstSeen_mem (l : List String) (x : String) :
    x ∈ firstSeen l ↔ x ∈ l := by
  rw [firstSeen, firstSeen_aux_mem]
  simp

theorem name_counts_keys_mem {l : List String} {k : String}
    (h : k ∈ (name_counts l).map Prod.fst) : k ∈ l := by
  rw [name_counts_fst] at h
  exact (firstSeen_mem l k).mp h

theorem create_eq_some (l : List String) (h : ∀ k ∈ l, k ≠ "") :
    create_author_count_dataframe l
      = some ((name_counts l).map (fun p => (p.2, formatName p.1))) := by
  rw [create_author_count_dataframe, if_pos]
  rw [List.all_eq_true]
  intro p hp
  have hmem : p.1 ∈ (name_counts l).map Prod.fst :=
    List.mem_map_of_mem Prod.fst hp
  simpa using h p.1 (name_counts_keys_mem hmem)

/-! ### Display-name round-trip lemmas -/

theorem capList_lower (m : List Char) (h : ∀ c ∈ m, c.toLower = c) :
    ((pyCapitalize (⟨m⟩ : String)).toList.map Char.toLower) = m := by
  cases m with
  | nil => rfl
  | cons c cs =>
    have hcs : cs.map Char.toLower = cs := by
      conv_rhs => rw [← List.map_id cs]
      exact List.map_congr_left (fun x hx => h x (List.mem_cons_of_mem _ hx))
    show (c.toUpper :: cs.map Char.toLower).map Char.toLower = c :: cs
    simp only [List.map_cons]
    rw [toLower_toUpper_of_lower (h c (List.mem_cons_self _ _)), hcs, hcs]

theorem roundTrip_key {k : String} (h : isWellFormedKey k) :
    reDerive (formatName k) = k := by
  obtain ⟨hlen, hlow⟩ := h
  obtain hnil | ⟨m, a, hk⟩ := List.eq_nil_or_concat k.toList
  · rw [hnil] at hlen
    simp at hlen
  rw [List.concat_eq_append] at hk
  have hm : ∀ c ∈ m, c.toLower = c := fun c hc =>
    hlow c (by rw [hk]; exact List.mem_append_left _ hc)
  have ha : a.toLower = a :=
    hlow a (by rw [hk]; exact List.mem_append_right _ (List.mem_singleton.mpr rfl))
  have hdrop : k.toList.drop (k.toList.length - 1) = [a] := by
    rw [hk, List.length_append]
    simp only [List.length_singleton]
    have he : m.length + 1 - 1 = m.length := by omega
    rw [he, List.drop_left]
  have hdl : k.toList.dropLast = m := by
    rw [hk]
    exact List.dropLast_concat
  have hfmt : (formatName k).toList
      = a.toUpper :: '.' :: ' ' :: (pyCapitalize (⟨m⟩ : String)).toList := by
    simp only [formatName, hdrop, hdl, toList_append]
    rfl
  simp only [reDerive, hfmt]
  show pyLower ((⟨(pyCapitalize (⟨m⟩ : String)).toList⟩ : String)
      ++ (⟨[a.toUpper]⟩ : String)) = k
  rw [mk_append]
  show (⟨((pyCapitalize (⟨m⟩ : String)).toList ++ [a.toUpper]).map Char.toLower⟩
      : String) = k
  rw [List.map_append, capList_lower m hm]
  simp only [List.map_cons, List.map_nil]
  rw [toLower_toUpper_of_lower ha, ← hk]
  cases k
  rfl

/-! ### Claims -/

/-- C1 (code bug, evaluation at the failing input): on the input list
`['Doe J.', <non-string>]` the `AttributeError` raised by `name.split()` in
the single-token guard (src/utils.py line 44, which sits outside the `try`)
propagates out of `clean_author_names` instead of being caught, printed and
converted into the halt-with-partial-results behavior the claim describes;
even the already accumulated key "doej" is lost. The `except
AttributeError` handler inside the `try` is unreachable. -/
theorem c1_attributeError_escapes :
    clean_author_names [PyVal.str "Doe J.", PyVal.nonString]
      = .error PyExc.attributeError := rfl

/-- C2 counterexample: on `["Doe "]` the Normalizer does not halt with a
diagnostic identifying the name (in this model, the abort result
`.ok ([], [PyVal.str "Doe "])`); the claim as stated is false because
`"Doe ".split()` is `["Doe"]`, a single token. -/
theorem c2_doeSpace_not_abort :
    ¬ (clean_author_names [PyVal.str "Doe "]
        = Except.ok (([] : List String), [PyVal.str "Doe "])) := by
  intro h
  have hbase : clean_author_names [PyVal.str "Doe "]
      = Except.ok (([] : List String), ([] : List PyVal)) := rfl
  rw [hbase] at h
  simp at h

/-- C2 amended: on `["Doe "]` whitespace splitting drops the empty piece
and yields the single token `["Doe"]`, so the name falls into the
single-token case: it is silently skipped with no diagnostic and no abort,
and the Normalizer returns `[]`. -/
theorem c2_doeSpace_silent_skip :
    clean_author_names [PyVal.str "Doe "] = .ok ([], [])
      ∧ pyTokens "Doe " = ["Doe"] :=
  ⟨rfl, rfl⟩

/-- C3: for every input list of canonical keys (nonempty strings), the
aggregation succeeds, its rows are one per distinct input key taken in
first-seen order (the key column of `name_counts` is `firstSeen l`, has no
duplicates, and contains a key exactly when the input does), and the sum of
the Count column of the output equals the length of the input. -/
theorem c3_aggregator_counts (l : List String) (h : ∀ k ∈ l, k ≠ "") :
    create_author_count_dataframe l
        = some ((name_counts l).map (fun p => (p.2, formatName p.1)))
      ∧ (name_counts l).map Prod.fst = firstSeen l
      ∧ (firstSeen l).Nodup
      ∧ (∀ k, k ∈ firstSeen l ↔ k ∈ l)
      ∧ (((name_counts l).map (fun p => (p.2, formatName p.1))).map
          Prod.fst).sum = l.length := by
  refine ⟨create_eq_some l h, name_counts_fst l, firstSeen_nodup l,
    fun k => firstSeen_mem l k, ?_⟩
  rw [List.map_map]
  have hc : (Prod.fst ∘ fun p : String × Nat => (p.2, formatName p.1))
      = Prod.snd := rfl
  rw [hc, name_counts_sum]

/-- C3 witness at `["doej", "smithj", "doej"]`. -/
theorem c3_aggregator_counts_witness :
    create_author_count_dataframe ["doej", "smithj", "doej"]
        = some ((name_counts ["doej", "smithj", "doej"]).map
            (fun p => (p.2, formatName p.1)))
      ∧ (name_counts ["doej", "smithj", "doej"]).map Prod.fst
          = firstSeen ["doej", "smithj", "doej"]
      ∧ (firstSeen ["doej", "smithj", "doej"]).Nodup
      ∧ (∀ k, k ∈ firstSeen ["doej", "smithj", "doej"]
          ↔ k ∈ ["doej", "smithj", "doej"])
      ∧ (((name_counts ["doej", "smithj", "doej"]).map
            (fun p => (p.2, formatName p.1))).map Prod.fst).sum = 3 :=
  c3_aggregator_counts ["doej", "smithj", "doej"] (by decide)

/-- C4: whenever `clean_author_names` runs to completion on a list of
strings (result `.ok (ks, [])`, no abort), the output lists in input order
one canonical key per name with at least two whitespace tokens, each equal
to lowercase(tokens[0] + first character of tokens[1]) with embedded spaces
removed (`keySpec`); in particular on `["Doe J.", "Smith J.", "Johnson A."]`
the output is `["doej", "smithj", "johnsona"]`. -/
theorem c4_normalizer_keys (l : List String) (ks : List String)
    (h : clean_author_names (l.map PyVal.str) = .ok (ks, [])) :
    ks = l.filterMap keySpec
      ∧ clean_author_names
            ((["Doe J.", "Smith J.", "Johnson A."] : List String).map PyVal.str)
          = .ok (["doej", "smithj", "johnsona"], []) :=
  ⟨clean_complete_keys l ks h, rfl⟩

/-- C4 witness at `["Doe J.", "Smith J.", "Johnson A."]`. -/
theorem c4_normalizer_keys_witness :
    (["doej", "smithj", "johnsona"] : List String)
        = (["Doe J.", "Smith J.", "Johnson A."] : List String).filterMap keySpec
      ∧ clean_author_names
            ((["Doe J.", "Smith J.", "Johnson A."] : List String).map PyVal.str)
          = .ok (["doej", "smithj", "johnsona"], []) :=
  c4_normalizer_keys ["Doe J.", "Smith J.", "Johnson A."]
    ["doej", "smithj", "johnsona"] rfl

/-- C5: a name that splits into exactly one whitespace token is discarded
silently — processing the list with it at the head gives exactly the result
of processing the remaining list, so no key, no diagnostic and no abort —
and in particular `["SingleName", "Doe J."]` normalizes to `["doej"]`. -/
theorem c5_single_token_skip (s : String) (rest : List PyVal)
    (h : (pyTokens s).length = 1) :
    clean_author_names (PyVal.str s :: rest) = clean_author_names rest
      ∧ clean_author_names [PyVal.str "SingleName", PyVal.str "Doe J."]
          = .ok (["doej"], []) :=
  ⟨single_token_skip s rest h, rfl⟩

/-- C5 witness at `["SingleName", "Doe J."]`. -/
theorem c5_single_token_skip_witness :
    clean_author_names (PyVal.str "SingleName" :: [PyVal.str "Doe J."])
        = clean_author_names [PyVal.str "Doe J."]
      ∧ clean_author_names [PyVal.str "SingleName", PyVal.str "Doe J."]
          = .ok (["doej"], []) :=
  c5_single_token_skip "SingleName" [PyVal.str "Doe J."] rfl

/-- C6: the Extractor splits every field on ", " and concatenates the
pieces in field order, so for nonempty fields the length of its output is
the sum over the fields of (occurrences of ", " plus one). -/
theorem c6_extractor_length (fields : List String)
    (h : ∀ f ∈ fields, f ≠ "") :
    (extract_authors fields).length
      = (fields.map (fun f => pyCountCommaSpace f + 1)).sum := by
  induction fields with
  | nil => rfl
  | cons f fs ih =>
    simp only [extract_authors, List.map_cons, List.flatten_cons,
      List.length_append, List.sum_cons]
    have hf : (pySplitCommaSpace f).length = pyCountCommaSpace f + 1 := by
      simp [pySplitCommaSpace, pyCountCommaSpace, splitCS_length]
    rw [hf]
    have hrest := ih (fun g hg => h g (List.mem_cons_of_mem _ hg))
    simp only [extract_authors] at hrest
    rw [hrest]

/-- C6 witness at `["John Doe, Jane Smith", "Alice Williams"]`. -/
theorem c6_extractor_length_witness :
    (extract_authors ["John Doe, Jane Smith", "Alice Williams"]).length
      = ((["John Doe, Jane Smith", "Alice Williams"] : List String).map
          (fun f => pyCountCommaSpace f + 1)).sum :=
  c6_extractor_length ["John Doe, Jane Smith", "Alice Williams"] (by decide)

/-- C7: for every input of nonempty canonical keys, the display name paired
with each distinct key is upper(final character) ++ ". " ++ capitalize(all
characters except the last); and the aggregation of the spec's six-key
example yields exactly the five stated rows in first-seen order with counts
1, 2, 1, 1, 1. -/
theorem c7_display_format (l : List String) (h : ∀ k ∈ l, k ≠ "") :
    create_author_count_dataframe l
        = some ((name_counts l).map (fun p =>
            (p.2, pyUpper (⟨p.1.toList.drop (p.1.toList.length - 1)⟩ : String)
              ++ ". " ++ pyCapitalize (⟨p.1.toList.dropLast⟩ : String))))
      ∧ create_author_count_dataframe
            ["doej", "smithj", "johnsona", "williamsa", "brownb", "smithj"]
          = some [(1, "J. Doe"), (2, "J. Smith"), (1, "A. Johnson"),
              (1, "A. Williams"), (1, "B. Brown")] :=
  ⟨create_eq_some l h, rfl⟩

/-- C7 witness at `["doej"]`. -/
theorem c7_display_format_witness :
    create_author_count_dataframe ["doej"]
        = some ((name_counts ["doej"]).map (fun p =>
            (p.2, pyUpper (⟨p.1.toList.drop (p.1.toList.length - 1)⟩ : String)
              ++ ". " ++ pyCapitalize (⟨p.1.toList.dropLast⟩ : String))))
      ∧ create_author_count_dataframe
            ["doej", "smithj", "johnsona", "williamsa", "brownb", "smithj"]
          = some [(1, "J. Doe"), (2, "J. Smith"), (1, "A. Johnson"),
              (1, "A. Williams"), (1, "B. Brown")] :=
  c7_display_format ["doej"] (by decide)

/-- C8: for well-formed canonical keys (lowercase, at least two characters)
the display format round-trips without collision: re-deriving each key from
its display name restores the key exactly, so aggregating the re-derived
keys reproduces the original aggregation — the same counts per key. -/
theorem c8_display_roundTrip (l : List String)
    (h : ∀ k ∈ l, isWellFormedKey k) :
    (∀ k ∈ l, reDerive (formatName k) = k)
      ∧ create_author_count_dataframe (l.map (fun k => reDerive (formatName k)))
          = create_author_count_dataframe l := by
  have hp : ∀ k ∈ l, reDerive (formatName k) = k := fun k hk =>
    roundTrip_key (h k hk)
  refine ⟨hp, ?_⟩
  have hmap : l.map (fun k => reDerive (formatName k)) = l := by
    conv_rhs => rw [← List.map_id l]
    exact List.map_congr_left hp
  rw [hmap]

/-- C8 witness at `["doej", "smithj", "doej"]`. -/
theorem c8_display_roundTrip_witness :
    (∀ k ∈ (["doej", "smithj", "doej"] : List String),
        reDerive (formatName k) = k)
      ∧ create_author_count_dataframe
            ((["doej", "smithj", "doej"] : List String).map
              (fun k => reDerive (formatName k)))
          = create_author_count_dataframe ["doej", "smithj", "doej"] :=
  c8_display_roundTrip ["doej", "smithj", "doej"] (by decide)

/-- C9: if every name before it is a string with at least one whitespace
token, a string with zero tokens (such as the empty string) makes
`clean_author_names` halt right there through the caught out-of-range
branch: the result is exactly the keys accumulated before the offending
name together with the diagnostic naming it, and the rest of the input is
not processed — the empty name is not silently filtered out. -/
theorem c9_zero_tokens_abort (l1 : List String) (s : String)
    (rest : List PyVal)
    (h1 : ∀ t ∈ l1, pyTokens t ≠ [])
    (h2 : pyTokens s = []) :
    clean_author_names (l1.map PyVal.str ++ PyVal.str s :: rest)
      = .ok (l1.filterMap keySpec, [PyVal.str s]) :=
  zero_tokens_abort l1 s rest h1 h2

/-- C9 witness: `["Doe J.", "", "Smith J."]` halts at `""`, keeping "doej"
and never processing "Smith J.". -/
theorem c9_zero_tokens_abort_witness :
    clean_author_names ((["Doe J."] : List String).map PyVal.str
        ++ PyVal.str "" :: [PyVal.str "Smith J."])
      = .ok ((["Doe J."] : List String).filterMap keySpec, [PyVal.str ""]) :=
  c9_zero_tokens_abort ["Doe J."] "" [PyVal.str "Smith J."] (by decide) rfl

/-- C10: every key in a result `clean_author_names` returns (a completed or
broken-off run) satisfies the Aggregator's precondition — nonempty, at
least two characters, entirely lowercase, without space characters — and
the output never has more entries than the input. -/
theorem c10_output_invariants (l : List PyVal) (ks : List String)
    (ds : List PyVal)
    (h : clean_author_names l = .ok (ks, ds)) :
    (∀ k ∈ ks, k ≠ "" ∧ 2 ≤ k.toList.length ∧ (∀ c ∈ k.toList, c.toLower = c)
      ∧ ∀ c ∈ k.toList, c ≠ ' ')
    ∧ ks.length ≤ l.length :=
  clean_keys_invariant l ks ds h

/-- C10 witness at `["Doe J."]`. -/
theorem c10_output_invariants_witness :
    (∀ k ∈ (["doej"] : List String), k ≠ "" ∧ 2 ≤ k.toList.length
      ∧ (∀ c ∈ k.toList, c.toLower = c) ∧ ∀ c ∈ k.toList, c ≠ ' ')
    ∧ (["doej"] : List String).length ≤ [PyVal.str "Doe J."].length :=
  c10_output_invariants [PyVal.str "Doe J."] ["doej"] [] rfl
